import Mathlib

/-!
Verification development for the greylock storage engine
(`src/include/greylock/database.hpp`, `src/src/server.cpp`).

The C++ code is shallowly embedded: each definition below translates one
function or data type of the source.  Serialized values are abstracted by
what they deserialize to (constructor `PValue.corrupt` stands for bytes
that fail deserialization).  Machine integers are modelled as `Int`; the
one place where int64 wrap-around matters (`metadata::get_sequence`) wraps
explicitly through `int64_wrap`.
-/

/-- Modelled from the spec: `id.hpp` is not under `src/`.  Per spec section 3 a
DocumentId `id_t` is `(tsec:int64, tnsec:int32, seq:int32)` "ordered
lexicographically by timestamp first, then sequence".  We model it as a
lexicographic triple of integers. -/
abbrev id_t : Type := Int ×ₗ Int ×ₗ Int

/-- Convenience constructor for `id_t` values. -/
def id_t.make (tsec tnsec seq : Int) : id_t := toLex (tsec, toLex (tnsec, seq))

/-- One `std::set` insertion into a strictly-sorted list: `std::set<T>`
with `operator<` keeps elements strictly ascending and drops an element that
is neither smaller nor greater than an existing one (i.e. equal, for a
linear order).  This models the `unique_index.emplace` / `shards.insert`
calls of `disk_index_merge_operator` in `database.hpp`. -/
def setInsert {α : Type} [LinearOrder α] (x : α) : List α → List α
  | [] => [x]
  | y :: ys => if x < y then x :: y :: ys else if y < x then y :: setInsert x ys else y :: ys

/-- Inserting every element of `xs` into the set represented by `init`
(models `std::set::insert(first, last)` and the operand loops of the merge
operator). -/
def setUnion {α : Type} [LinearOrder α] (init : List α) (xs : List α) : List α :=
  xs.foldl (fun s v => setInsert v s) init

/-- Folding `setUnion` over a list of element lists (models inserting the
`shards` vector of each deserialized operand `disk_token` into the set). -/
def setUnionList {α : Type} [LinearOrder α] (init : List α) (xss : List (List α)) : List α :=
  xss.foldl (fun acc s => setUnion acc s) init

/-- A persisted or operand value of the `indexes` store, abstracted by what
it deserializes to.  `corrupt` stands for any byte string whose
deserialization into the expected type fails (`deserialize` returning an
error in `database.hpp`). -/
inductive PValue : Type where
  | doc_for_index (did : id_t)
  | posting_list (ids : List id_t)
  | shard_set (shards : List Nat)
  | corrupt
deriving DecidableEq

/-- Deserializing an operand as a `document_for_index` (a single
`indexed_id`).  Anything else fails. -/
def deser_document_for_index : PValue → Option id_t
  | .doc_for_index did => some did
  | _ => none

/-- Deserializing an old value as a `disk_index` (vector `ids`). -/
def deser_disk_index : PValue → Option (List id_t)
  | .posting_list ids => some ids
  | _ => none

/-- Deserializing a value as a `disk_token` (vector `shards`). -/
def deser_disk_token : PValue → Option (List Nat)
  | .shard_set shards => some shards
  | _ => none

/-- Deserializing a whole operand list, failing on the first bad operand,
exactly as the operand loops of `merge_index` / `merge_token_shards` return
`false` on the first deserialization error. -/
def deserAll {α : Type} (f : PValue → Option α) : List PValue → Option (List α)
  | [] => some []
  | v :: vs =>
    match f v, deserAll f vs with
    | some x, some xs => some (x :: xs)
    | _, _ => none

/-- The deduplicating union computed by
`disk_index_merge_operator::merge_index` (`database.hpp` lines 164-202) on
already-deserialized data: the old posting list is poured into a
`std::set<document_for_index>`, each operand id is inserted, and the set is
copied back out in its sorted order. -/
def merge_index_ids (old_ids : List id_t) (operand_ids : List id_t) : List id_t :=
  setUnion (setUnion [] old_ids) operand_ids

/-- `disk_index_merge_operator::merge_index`: deserialize the old value as a
`disk_index` (absent old value means the empty list), deserialize every
operand as a `document_for_index`, and emit the sorted deduplicated union.
Returns `none` (the C++ `return false`) on any deserialization failure. -/
def merge_index (old_value : Option PValue) (operand_list : List PValue) : Option PValue :=
  match (match old_value with
         | none => some []
         | some v => deser_disk_index v) with
  | none => none
  | some old_ids =>
    match deserAll deser_document_for_index operand_list with
    | none => none
    | some dids => some (.posting_list (merge_index_ids old_ids dids))

/-- The deduplicating union computed by
`disk_index_merge_operator::merge_token_shards` (`database.hpp` lines
214-250) on already-deserialized data: old shards poured into a
`std::set<size_t>`, then the whole `shards` vector of every operand. -/
def merge_token_shards_ids (old_shards : List Nat) (operand_shards : List (List Nat)) : List Nat :=
  setUnionList (setUnion [] old_shards) operand_shards

/-- `disk_index_merge_operator::merge_token_shards`: deserialize the old
value as a `disk_token` (absent means empty), deserialize every operand as
a `disk_token`, and emit the sorted deduplicated union of all shard ids. -/
def merge_token_shards (old_value : Option PValue) (operand_list : List PValue) : Option PValue :=
  match (match old_value with
         | none => some []
         | some v => deser_disk_token v) with
  | none => none
  | some old_shards =>
    match deserAll deser_disk_token operand_list with
    | none => none
    | some op_shards => some (.shard_set (merge_token_shards_ids old_shards op_shards))

/-- The literal key prefix `"token_shards."` checked by `FullMerge`. -/
def tokenShardsPfx : List Char := "token_shards.".toList

/-- The literal key prefix `"index."` checked by `FullMerge`. -/
def indexPfx : List Char := "index.".toList

/-- `disk_index_merge_operator::FullMerge` (`database.hpp` lines 252-264):
dispatch on the key prefix; any other prefix returns failure (`none`). -/
def FullMerge (key : List Char) (old_value : Option PValue) (operand_list : List PValue) :
    Option PValue :=
  if tokenShardsPfx.isPrefixOf key then merge_token_shards old_value operand_list
  else if indexPfx.isPrefixOf key then merge_index old_value operand_list
  else none

/-- A query/index token as used by `server.cpp` (type declared in the
external `types.hpp`; the fields below are exactly those the in-scope code
reads: `name` and `positions` in `on_search::check_exact`, and `key`,
`shard_key`, `shards` in `on_index::process_one_document`). -/
structure token where
  name : String
  positions : List Nat
  shards : List Nat
  key : List Char
  shard_key : List Char

/-- An index attribute: a name plus its tokens (fields read by
`on_search::check_result` as `attr.name` / `attr.tokens` and by
`on_index::process_one_document` as `attr.tokens`). -/
structure Attribute where
  name : String
  tokens : List token

/-- `on_search::check_exact`, inner lambda `check_token_positions`
(`server.cpp` lines 136-150): every position of the token must be in
bounds and hold exactly the token's name. -/
def check_token_positions (t : token) (content : List String) (content_offset : Nat) : Bool :=
  t.positions.all fun pos =>
    if h : content_offset + pos < content.length then
      t.name == content.get ⟨content_offset + pos, h⟩
    else false

/-- `on_search::check_exact` (`server.cpp` lines 135-166): scan every
content offset; an offset matches when every pattern token matches all its
positions there. -/
def check_exact (tokens : List token) (content : List String) : Bool :=
  (List.range content.length).any fun content_offset =>
    tokens.all fun t => check_token_positions t content content_offset

/-- `std::string::find(pat) != std::string::npos` on character lists:
`true` iff `pat` occurs as a contiguous substring of the haystack. -/
def contains_sub (pat : List Char) : List Char → Bool
  | [] => pat.isPrefixOf []
  | c :: rest => pat.isPrefixOf (c :: rest) || contains_sub pat rest

/-- A mailbox query as consumed by `on_search::check_result`: only its
`exact` attributes (`ent.idx.exact` in the source) are read there. -/
structure mailbox_query where
  exact : List Attribute

/-- A document as read and written by `server.cpp`: external `id`, internal
`indexed_id`, stored `title` and `content` texts (`doc.ctx`), and the index
attributes (`doc.idx.attributes`). -/
structure document where
  id : String
  mbox : String
  indexed_id : id_t
  title : String
  content : String
  attributes : List Attribute

/-- `on_search::check_result` (`server.cpp` lines 189-208): for every
mailbox query and every exact attribute, re-verify the phrase against the
tokenized stored title when the attribute name contains `"title"`, and
against the tokenized stored content otherwise.  `split` stands for
`split_content` (the external tokenizer pipeline). -/
def check_result (split : String → List String) (se : List mailbox_query) (doc : document) :
    Bool :=
  se.all fun ent =>
    ent.exact.all fun attr =>
      if contains_sub "title".toList attr.name.toList then
        check_exact attr.tokens (split doc.title)
      else
        check_exact attr.tokens (split doc.content)

/-- One operation of the `docs_batch` built by
`on_index::process_one_document`: the document record keyed by
`indexed_id` and the external-id mapping.  Serialization is elided: the
batch carries the typed payloads. -/
inductive docs_op : Type where
  | put_document (indexed_id : id_t) (doc : document)
  | put_document_id (ext_id : String) (indexed_id : id_t)

/-- One operation of the `indexes_batch` built by
`on_index::process_one_document`: a posting-list merge of a single
`document_for_index` under the token `key`, or a shard-set merge of the
token's `shards` under its `shard_key`. -/
inductive index_op : Type where
  | merge_posting (key : List Char) (did : id_t)
  | merge_shards (key : List Char) (shards : List Nat)

/-- The `docs_batch` of `on_index::process_one_document` (`server.cpp`
lines 403-409): the document record put, then the external-id mapping put. -/
def docs_batch_ops (doc : document) : List docs_op :=
  [.put_document doc.indexed_id doc, .put_document_id doc.id doc.indexed_id]

/-- The `indexes_batch` of `on_index::process_one_document` (`server.cpp`
lines 389-401): for every token of every attribute, a posting-list merge
followed by a shard-set merge. -/
def indexes_batch_ops (doc : document) : List index_op :=
  doc.attributes.flatMap fun attr =>
    attr.tokens.flatMap fun t =>
      [.merge_posting t.key doc.indexed_id, .merge_shards t.shard_key t.shards]

/-- A committed (attempted) batch write, in order of execution: the
observable store effects of `process_one_document`. -/
inductive wevent : Type where
  | docs_write (ops : List docs_op)
  | indexes_write (ops : List index_op)

/-- `on_index::process_one_document` (`server.cpp` lines 377-429), with the
two store writes' outcomes supplied as oracles (`none` = success, `some e`
= failure with error code `e`, which `create_error` preserves): build both
batches, write `docs_batch`, return its error on failure, otherwise write
`indexes_batch` and return its outcome.  The second component records the
attempted batch writes in execution order. -/
def process_one_document (docs_write_err indexes_write_err : Option Int) (doc : document) :
    Option Int × List wevent :=
  let db := docs_batch_ops doc
  let ib := indexes_batch_ops doc
  match docs_write_err with
  | some e => (some e, [.docs_write db])
  | none =>
    match indexes_write_err with
    | some e => (some e, [.docs_write db, .indexes_write ib])
    | none => (none, [.docs_write db, .indexes_write ib])

/-- Two's-complement wrap-around of `int64` arithmetic: `std::atomic_long`
increments wrap modulo `2^64` into `[-2^63, 2^63)`. -/
def int64_wrap (x : Int) : Int := (x + 2 ^ 63) % 2 ^ 64 - 2 ^ 63

/-- The `metadata` class state of `database.hpp` (lines 64-127): a dirty
flag and the `int64` sequence counter. -/
structure metadata where
  m_dirty : Bool
  m_seq : Int

/-- `metadata::get_sequence` (`database.hpp` lines 75-78): set the dirty
flag and return `m_seq++` (the pre-increment value; the stored counter
wraps as an `int64`). -/
def metadata.get_sequence (m : metadata) : Int × metadata :=
  (m.m_seq, { m_dirty := true, m_seq := int64_wrap (m.m_seq + 1) })

/-- The values returned by `n` consecutive `get_sequence` calls, together
with the final metadata state. -/
def metadata.run_sequence (m : metadata) : Nat → List Int × metadata
  | 0 => ([], m)
  | n + 1 =>
    let r := m.get_sequence
    let rest := r.2.run_sequence n
    (r.1 :: rest.1, rest.2)

/-- The list `[s, s+1, ..., s+n-1]` of consecutive integers: the expected
return values of `n` wrap-free `get_sequence` calls starting at counter
value `s`. -/
def intRangeFrom (s : Int) : Nat → List Int
  | 0 => []
  | n + 1 => s :: intRangeFrom (s + 1) n

/-- A msgpack object, restricted to the shapes `metadata`
packing/unpacking distinguishes: integers, arrays, and anything else. -/
inductive msg_object : Type where
  | int (n : Int)
  | arr (elems : List msg_object)
  | other

/-- `msgpack::object::convert` into an integer variable: succeeds only on
an integer object (anything else throws, i.e. yields `none`). -/
def convert_int : msg_object → Option Int
  | .int n => some n
  | _ => none

/-- `metadata::msgpack_pack` (`database.hpp` lines 84-89):
`pack_array(2); pack((int)serialize_version_2); pack(m_seq)`. -/
def msgpack_pack (m : metadata) : msg_object :=
  .arr [.int 2, .int m.m_seq]

/-- `metadata::msgpack_unpack` (`database.hpp` lines 91-122), returning the
restored sequence value: reject non-arrays, convert the first element to
the version, reject a version different from the array arity, and accept
only the known version 2, converting the second element into `m_seq`.
Reading the first element of an empty msgpack array (out-of-bounds in the
C++) is modelled as a failure. -/
def msgpack_unpack (o : msg_object) : Option Int :=
  match o with
  | .arr elems =>
    match convert_int (elems.getD 0 .other) with
    | none => none
    | some version =>
      if version = (elems.length : Int) then
        if version = 2 then convert_int (elems.getD 1 .other) else none
      else none
  | _ => none

/-- One operation appended to a caller-supplied `rocksdb::WriteBatch`. -/
inductive batch_op : Type where
  | put (key : String) (value : msg_object)

/-- A write performed directly on the database handle (`m_db->Put`). -/
inductive db_event : Type where
  | db_put (key : String) (value : msg_object)

/-- `database::sync_metadata` (`database.hpp` lines 375-395), with the
outcome of a direct `m_db->Put` supplied as an oracle (`none` = success;
only reachable when `batch` is absent).  Returns the error outcome, the
updated metadata, the updated caller batch, and the direct database writes
attempted.  When the metadata is not dirty nothing happens; with a batch
the serialized metadata is only appended to it, the dirty flag is cleared
and the call succeeds (the default-constructed `rocksdb::Status` is `ok`);
without a batch a direct put is attempted and the dirty flag is cleared
only on success. -/
def sync_metadata (db_put_err : Option Int) (m : metadata) (batch : Option (List batch_op)) :
    Option Int × metadata × Option (List batch_op) × List db_event :=
  if m.m_dirty = false then (none, m, batch, [])
  else
    let meta_serialized := msgpack_pack m
    match batch with
    | some b =>
      (none, { m with m_dirty := false }, some (b ++ [.put "greylock.meta.key" meta_serialized]),
        [])
    | none =>
      match db_put_err with
      | some e => (some e, m, none, [.db_put "greylock.meta.key" meta_serialized])
      | none =>
        (none, { m with m_dirty := false }, none, [.db_put "greylock.meta.key" meta_serialized])

/-- A value stored under a shard-set key, abstracted by its `disk_token`
deserialization outcome: `good shards` stands for bytes deserializing to a
`disk_token` with that shard vector, `corrupt` for bytes that fail. -/
inductive stored_value : Type where
  | good (shards : List Nat)
  | corrupt
deriving DecidableEq

/-- `database::get_shards` (`database.hpp` lines 448-461) and the identical
`read_only_database::get_shards` (lines 326-341): read the key (a store is
a partial map; `none` models any read failure, `NotFound` included), and
return the default-constructed empty `dt.shards` on read failure and on
deserialization failure alike; the return type carries no error. -/
def get_shards (store : String → Option stored_value) (key : String) : List Nat :=
  match store key with
  | none => []
  | some .corrupt => []
  | some (.good shards) => shards

/-- A concrete DocumentId used to evaluate the merge on sample inputs. -/
def sample_id (n : Int) : id_t := id_t.make 0 0 n

lemma mem_setInsert {α : Type} [LinearOrder α] (a x : α) (l : List α) :
    a ∈ setInsert x l ↔ a = x ∨ a ∈ l := by
  induction l with
  | nil => simp [setInsert]
  | cons y ys ih =>
    by_cases h1 : x < y
    · simp only [setInsert, if_pos h1, List.mem_cons]
    · by_cases h2 : y < x
      · simp only [setInsert, if_neg h1, if_pos h2, List.mem_cons, ih]
        tauto
      · have hxy : x = y := le_antisymm (not_lt.mp h2) (not_lt.mp h1)
        subst hxy
        simp only [setInsert, if_neg h1, if_neg h2, List.mem_cons]
        tauto

lemma sorted_setInsert {α : Type} [LinearOrder α] (x : α) (l : List α)
    (h : List.Sorted (· < ·) l) : List.Sorted (· < ·) (setInsert x l) := by
  induction l with
  | nil => simp [setInsert]
  | cons y ys ih =>
    rw [List.sorted_cons] at h
    obtain ⟨hy, hys⟩ := h
    by_cases h1 : x < y
    · simp only [setInsert, if_pos h1]
      rw [List.sorted_cons]
      refine ⟨?_, List.sorted_cons.mpr ⟨hy, hys⟩⟩
      intro b hb
      rcases List.mem_cons.mp hb with rfl | hb
      · exact h1
      · exact lt_trans h1 (hy b hb)
    · by_cases h2 : y < x
      · simp only [setInsert, if_neg h1, if_pos h2]
        rw [List.sorted_cons]
        refine ⟨?_, ih hys⟩
        intro b hb
        rcases (mem_setInsert b x ys).mp hb with rfl | hb
        · exact h2
        · exact hy b hb
      · simp only [setInsert, if_neg h1, if_neg h2]
        exact List.sorted_cons.mpr ⟨hy, hys⟩

lemma mem_setUnion {α : Type} [LinearOrder α] (a : α) (init xs : List α) :
    a ∈ setUnion init xs ↔ a ∈ init ∨ a ∈ xs := by
  induction xs generalizing init with
  | nil => simp [setUnion]
  | cons x xs ih =>
    have hstep : setUnion init (x :: xs) = setUnion (setInsert x init) xs := rfl
    rw [hstep, ih, mem_setInsert]
    simp [List.mem_cons]
    tauto

lemma sorted_setUnion {α : Type} [LinearOrder α] (init xs : List α)
    (h : List.Sorted (· < ·) init) : List.Sorted (· < ·) (setUnion init xs) := by
  induction xs generalizing init with
  | nil => exact h
  | cons x xs ih =>
    have hstep : setUnion init (x :: xs) = setUnion (setInsert x init) xs := rfl
    rw [hstep]
    exact ih _ (sorted_setInsert x init h)

lemma mem_setUnionList {α : Type} [LinearOrder α] (a : α) (init : List α) (xss : List (List α)) :
    a ∈ setUnionList init xss ↔ a ∈ init ∨ ∃ l ∈ xss, a ∈ l := by
  induction xss generalizing init with
  | nil => simp [setUnionList]
  | cons s xss ih =>
    have hstep : setUnionList init (s :: xss) = setUnionList (setUnion init s) xss := rfl
    rw [hstep, ih, mem_setUnion]
    simp [List.mem_cons]
    tauto

lemma sorted_setUnionList {α : Type} [LinearOrder α] (init : List α) (xss : List (List α))
    (h : List.Sorted (· < ·) init) : List.Sorted (· < ·) (setUnionList init xss) := by
  induction xss generalizing init with
  | nil => exact h
  | cons s xss ih =>
    have hstep : setUnionList init (s :: xss) = setUnionList (setUnion init s) xss := rfl
    rw [hstep]
    exact ih _ (sorted_setUnion init s h)

lemma sorted_eq_of_mem_iff {α : Type} [LinearOrder α] {l1 l2 : List α}
    (s1 : List.Sorted (· < ·) l1) (s2 : List.Sorted (· < ·) l2)
    (h : ∀ a, a ∈ l1 ↔ a ∈ l2) : l1 = l2 := by
  haveI : IsAntisymm α (· < ·) := ⟨fun a b hab hba => absurd hba (lt_asymm hab)⟩
  exact List.eq_of_perm_of_sorted
    ((List.perm_ext_iff_of_nodup s1.nodup s2.nodup).mpr h) s1 s2

lemma isPrefixOf_append_self (p s : List Char) : p.isPrefixOf (p ++ s) = true := by
  induction p with
  | nil => simp [List.isPrefixOf]
  | cons a as ih => simp [List.isPrefixOf, ih]

lemma isPrefixOf_cons_head_ne (a b : Char) (l1 l2 : List Char) (h : a ≠ b) :
    (a :: l1).isPrefixOf (b :: l2) = false := by
  simp [List.isPrefixOf, h]

lemma deserAll_map {α : Type} (f : PValue → Option α) (g : α → PValue)
    (hfg : ∀ x, f (g x) = some x) : ∀ l : List α, deserAll f (l.map g) = some l := by
  intro l
  induction l with
  | nil => rfl
  | cons x xs ih => simp [deserAll, hfg x, ih]

lemma contains_sub_correct (pat hay : List Char) :
    contains_sub pat hay = true ↔ pat <:+: hay := by
  induction hay with
  | nil =>
    cases pat with
    | nil => simp [contains_sub, List.isPrefixOf]
    | cons c cs => simp [contains_sub, List.isPrefixOf]
  | cons c rest ih =>
    have hstep : contains_sub pat (c :: rest) =
        (pat.isPrefixOf (c :: rest) || contains_sub pat rest) := rfl
    rw [hstep, Bool.or_eq_true, ih, List.infix_cons_iff, List.isPrefixOf_iff_prefix]

lemma int64_wrap_eq (x : Int) (h0 : -(2 ^ 63) ≤ x) (h1 : x < 2 ^ 63) : int64_wrap x = x := by
  unfold int64_wrap
  rw [Int.emod_eq_of_lt (by omega) (by omega)]
  omega

lemma mem_intRangeFrom (a : Int) : ∀ (n : Nat) (start : Int),
    a ∈ intRangeFrom start n ↔ start ≤ a ∧ a < start + n := by
  intro n
  induction n with
  | zero => intro start; simp [intRangeFrom]
  | succ k ih =>
    intro start
    simp only [intRangeFrom, List.mem_cons, ih (start + 1)]
    constructor
    · rintro (rfl | ⟨h1, h2⟩) <;> constructor <;> omega
    · rintro ⟨h1, h2⟩
      rcases eq_or_lt_of_le h1 with rfl | h3
      · exact Or.inl rfl
      · exact Or.inr ⟨by omega, by omega⟩

lemma pairwise_intRangeFrom : ∀ (n : Nat) (start : Int),
    List.Pairwise (· < ·) (intRangeFrom start n) := by
  intro n
  induction n with
  | zero => intro start; simp [intRangeFrom]
  | succ k ih =>
    intro start
    refine List.Pairwise.cons ?_ (ih (start + 1))
    intro b hb
    rw [mem_intRangeFrom] at hb
    omega

lemma run_sequence_eq (n : Nat) : ∀ m : metadata, -(2 ^ 63) ≤ m.m_seq →
    m.m_seq + n < 2 ^ 63 →
    (metadata.run_sequence m n).1 = intRangeFrom m.m_seq n := by
  induction n with
  | zero => intro m _ _; rfl
  | succ k ih =>
    intro m h0 h1
    have hwrap : int64_wrap (m.m_seq + 1) = m.m_seq + 1 :=
      int64_wrap_eq (m.m_seq + 1) (by omega) (by omega)
    have hstep : (metadata.run_sequence m (k + 1)).1 =
        m.m_seq :: (metadata.run_sequence ⟨true, int64_wrap (m.m_seq + 1)⟩ k).1 := rfl
    rw [hstep, hwrap]
    have hk := ih ⟨true, m.m_seq + 1⟩ (by show -(2 ^ 63) ≤ m.m_seq + 1; omega)
      (by show m.m_seq + 1 + (k : Int) < 2 ^ 63; omega)
    rw [hk]
    rfl

lemma msgpack_unpack_cons (v : Int) (b : msg_object) (rest : List msg_object) :
    msgpack_unpack (.arr (.int v :: b :: rest)) =
      if v = (rest.length : Int) + 2 then (if v = 2 then convert_int b else none)
      else none := by
  have h1 : msgpack_unpack (.arr (.int v :: b :: rest)) =
      if v = ((msg_object.int v :: b :: rest).length : Int) then
        (if v = 2 then convert_int b else none)
      else none := rfl
  rw [h1]
  have h2 : ((msg_object.int v :: b :: rest).length : Int) = (rest.length : Int) + 2 := by
    push_cast [List.length_cons]
    ring
  rw [h2]

/-- C1: `disk_index_merge_operator::FullMerge` dispatches by key prefix:
a key starting with `"token_shards."` gets the shard-set union merge, a
key starting with `"index."` gets the posting-list union merge, and every
key starting with neither prefix makes the merge fail (no value). -/
theorem claim_C1_fullmerge_dispatch (suffix key : List Char) (old_value : Option PValue)
    (operand_list : List PValue) :
    FullMerge (tokenShardsPfx ++ suffix) old_value operand_list =
      merge_token_shards old_value operand_list ∧
    FullMerge (indexPfx ++ suffix) old_value operand_list =
      merge_index old_value operand_list ∧
    (tokenShardsPfx.isPrefixOf key = true ∨ indexPfx.isPrefixOf key = true ∨
      FullMerge key old_value operand_list = none) := by
  refine ⟨?_, ?_, ?_⟩
  · simp [FullMerge, isPrefixOf_append_self]
  · have hfalse : tokenShardsPfx.isPrefixOf (indexPfx ++ suffix) = false := by
      have e1 : tokenShardsPfx = 't' :: "oken_shards.".toList := by decide
      have e2 : indexPfx ++ suffix = 'i' :: ("ndex.".toList ++ suffix) := by
        have e3 : indexPfx = 'i' :: "ndex.".toList := by decide
        rw [e3]
        rfl
      rw [e1, e2]
      exact isPrefixOf_cons_head_ne _ _ _ _ (by decide)
    simp [FullMerge, hfalse, isPrefixOf_append_self]
  · cases hts : tokenShardsPfx.isPrefixOf key
    · cases hix : indexPfx.isPrefixOf key
      · refine Or.inr (Or.inr ?_)
        simp [FullMerge, hts, hix]
      · exact Or.inr (Or.inl rfl)
    · exact Or.inl rfl

/-- C2: every successful merge emits a strictly ascending, duplicate-free
value whose members are exactly the union of the old value and the
operands: `merge_index_ids` for posting lists (union of old ids and
operand ids, strictly ascending by `indexed_id`), `merge_token_shards_ids`
for shard sets (union of old shards and every operand's shards, strictly
ascending), for every old value and every operand list; and the
value-level merges emit exactly these lists. -/
theorem claim_C2_merge_sorted_union (old_ids operand_ids : List id_t)
    (old_shards : List Nat) (operand_shards : List (List Nat)) :
    List.Sorted (· < ·) (merge_index_ids old_ids operand_ids) ∧
    (∀ x : id_t, x ∈ merge_index_ids old_ids operand_ids ↔ x ∈ old_ids ∨ x ∈ operand_ids) ∧
    merge_index (some (.posting_list old_ids)) (operand_ids.map .doc_for_index) =
      some (.posting_list (merge_index_ids old_ids operand_ids)) ∧
    merge_index none (operand_ids.map .doc_for_index) =
      some (.posting_list (merge_index_ids [] operand_ids)) ∧
    List.Sorted (· < ·) (merge_token_shards_ids old_shards operand_shards) ∧
    (∀ sh : Nat, sh ∈ merge_token_shards_ids old_shards operand_shards ↔
      sh ∈ old_shards ∨ ∃ l ∈ operand_shards, sh ∈ l) ∧
    merge_token_shards (some (.shard_set old_shards)) (operand_shards.map .shard_set) =
      some (.shard_set (merge_token_shards_ids old_shards operand_shards)) ∧
    merge_token_shards none (operand_shards.map .shard_set) =
      some (.shard_set (merge_token_shards_ids [] operand_shards)) := by
  refine ⟨?_, ?_, ?_, ?_, ?_, ?_, ?_, ?_⟩
  · exact sorted_setUnion _ _ (sorted_setUnion _ _ (by simp))
  · intro x
    unfold merge_index_ids
    rw [mem_setUnion, mem_setUnion]
    simp
  · simp [merge_index, deser_disk_index,
      deserAll_map deser_document_for_index PValue.doc_for_index (fun x => rfl)]
  · simp [merge_index,
      deserAll_map deser_document_for_index PValue.doc_for_index (fun x => rfl)]
  · exact sorted_setUnionList _ _ (sorted_setUnion _ _ (by simp))
  · intro sh
    unfold merge_token_shards_ids
    rw [mem_setUnionList, mem_setUnion]
    simp
  · simp [merge_token_shards, deser_disk_token,
      deserAll_map deser_disk_token PValue.shard_set (fun x => rfl)]
  · simp [merge_token_shards,
      deserAll_map deser_disk_token PValue.shard_set (fun x => rfl)]

/-- C3: the posting-list merge is a set-union: two operand lists carrying
the same set of deserialized `document_for_index` values produce the same
new value for every old value, so the result is invariant under
permutation and duplication of operands. -/
theorem claim_C3_merge_index_set_semantics (old_ids l1 l2 : List id_t)
    (h : ∀ x : id_t, x ∈ l1 ↔ x ∈ l2) :
    merge_index_ids old_ids l1 = merge_index_ids old_ids l2 ∧
    merge_index (some (.posting_list old_ids)) (l1.map .doc_for_index) =
      merge_index (some (.posting_list old_ids)) (l2.map .doc_for_index) := by
  have hids : merge_index_ids old_ids l1 = merge_index_ids old_ids l2 := by
    refine sorted_eq_of_mem_iff ?_ ?_ ?_
    · exact sorted_setUnion _ _ (sorted_setUnion _ _ (by simp))
    · exact sorted_setUnion _ _ (sorted_setUnion _ _ (by simp))
    · intro a
      unfold merge_index_ids
      rw [mem_setUnion, mem_setUnion, mem_setUnion, mem_setUnion, h a]
  refine ⟨hids, ?_⟩
  simp [merge_index, deser_disk_index,
    deserAll_map deser_document_for_index PValue.doc_for_index (fun x => rfl), hids]

/-- Witness for C3: merging operands `[2, 1, 1]` (a permutation with a
duplicate) gives the same value as merging `[1, 2]`. -/
theorem claim_C3_witness :
    merge_index_ids [sample_id 5] [sample_id 2, sample_id 1, sample_id 1] =
      merge_index_ids [sample_id 5] [sample_id 1, sample_id 2] ∧
    merge_index (some (.posting_list [sample_id 5]))
        ([sample_id 2, sample_id 1, sample_id 1].map .doc_for_index) =
      merge_index (some (.posting_list [sample_id 5]))
        ([sample_id 1, sample_id 2].map .doc_for_index) :=
  claim_C3_merge_index_set_semantics [sample_id 5] [sample_id 2, sample_id 1, sample_id 1]
    [sample_id 1, sample_id 2] (by intro x; simp [List.mem_cons]; tauto)

/-- C4: `on_search::check_exact` returns `true` iff some content offset
`o` below the content length satisfies every pattern token at every one of
its positions: `o + p` in bounds and `content[o + p]` equal to the token
name; an out-of-bounds `o + p` merely fails that offset. -/
theorem claim_C4_check_exact_iff (tokens : List token) (content : List String) :
    check_exact tokens content = true ↔
      ∃ o, o < content.length ∧ ∀ t ∈ tokens, ∀ p ∈ t.positions,
        ∃ hb : o + p < content.length, content.get ⟨o + p, hb⟩ = t.name := by
  unfold check_exact
  rw [List.any_eq_true]
  constructor
  · rintro ⟨o, hmem, hall⟩
    rw [List.mem_range] at hmem
    rw [List.all_eq_true] at hall
    refine ⟨o, hmem, ?_⟩
    intro t ht p hp
    have h1 := hall t ht
    unfold check_token_positions at h1
    rw [List.all_eq_true] at h1
    have h2 := h1 p hp
    by_cases hb : o + p < content.length
    · simp only [dif_pos hb, beq_iff_eq] at h2
      exact ⟨hb, h2.symm⟩
    · simp only [dif_neg hb] at h2
      exact absurd h2 (by simp)
  · rintro ⟨o, ho, hall⟩
    refine ⟨o, List.mem_range.mpr ho, ?_⟩
    rw [List.all_eq_true]
    intro t ht
    unfold check_token_positions
    rw [List.all_eq_true]
    intro p hp
    obtain ⟨hb, heq⟩ := hall t ht p hp
    simp only [dif_pos hb, beq_iff_eq]
    exact heq.symm

/-- C5: `on_index::process_one_document` writes the docs batch (document
record plus external-id mapping) strictly before the indexes batch, and a
docs-batch failure returns that error without the indexes batch ever being
written. -/
theorem claim_C5_docs_before_indexes (doc : document) (e : Int) (ierr : Option Int) :
    process_one_document (some e) ierr doc =
      (some e, [.docs_write (docs_batch_ops doc)]) ∧
    (process_one_document none ierr doc).2 =
      [.docs_write (docs_batch_ops doc), .indexes_write (indexes_batch_ops doc)] := by
  constructor
  · rfl
  · cases ierr <;> rfl

/-- Counterexample to C6: `m_seq` is an `int64`, so `get_sequence` wraps.
Starting from counter value `2^63 - 1` (a state reachable after that many
allocations, or restored from disk metadata), the second of two calls
returns `-2^63`, which is smaller than the first returned value — the
returned values are not strictly increasing. -/
theorem claim_C6_counterexample :
    (metadata.run_sequence ⟨false, 2 ^ 63 - 1⟩ 2).1 = [2 ^ 63 - 1, -(2 ^ 63)] ∧
    (-(2 ^ 63) : Int) < 2 ^ 63 - 1 := by
  constructor
  · decide
  · decide

/-- C6 as amended: every `metadata::get_sequence` call sets the dirty
flag, and as long as the `int64` counter does not overflow (fewer than
`2^63 - m_seq` calls), the returned values are the consecutive integers
starting at the current counter — strictly increasing, hence never
reused. -/
theorem claim_C6_amended (m : metadata) (n : Nat)
    (h0 : -(2 ^ 63) ≤ m.m_seq) (h1 : m.m_seq + n < 2 ^ 63) :
    (metadata.get_sequence m).2.m_dirty = true ∧
    (metadata.run_sequence m n).1 = intRangeFrom m.m_seq n ∧
    List.Pairwise (· < ·) (metadata.run_sequence m n).1 := by
  have he := run_sequence_eq n m h0 h1
  refine ⟨rfl, he, ?_⟩
  rw [he]
  exact pairwise_intRangeFrom n m.m_seq

/-- Witness for the amended C6 at a fresh metadata state and three calls. -/
theorem claim_C6_witness :
    ((⟨false, 0⟩ : metadata).get_sequence).2.m_dirty = true ∧
    (metadata.run_sequence ⟨false, 0⟩ 3).1 = intRangeFrom 0 3 ∧
    List.Pairwise (· < ·) (metadata.run_sequence ⟨false, 0⟩ 3).1 :=
  claim_C6_amended ⟨false, 0⟩ 3 (by norm_num) (by norm_num)

/-- Counterexample to C7: `get_shards` has no error channel at all — on a
key whose present value fails `disk_token` deserialization it silently
returns the empty shard list, indistinguishable from a missing key. -/
theorem claim_C7_counterexample :
    get_shards (fun _ => some .corrupt) "token_shards.m.a.t" = [] ∧
    get_shards (fun _ => none) "token_shards.m.a.t" = [] :=
  ⟨rfl, rfl⟩

/-- C7 as amended: a missing key yields the empty shard set, and a
deserialization failure of a present value also silently yields the empty
shard set; only a well-formed value yields its shards.  No error is
surfaced in any case (this is the behavior of both `database::get_shards`
and `read_only_database::get_shards`). -/
theorem claim_C7_amended (store : String → Option stored_value) (key : String)
    (shards : List Nat) :
    get_shards (Function.update store key none) key = [] ∧
    get_shards (Function.update store key (some .corrupt)) key = [] ∧
    get_shards (Function.update store key (some (.good shards))) key = shards := by
  refine ⟨?_, ?_, ?_⟩ <;> simp [get_shards, Function.update_same]

/-- C8: `metadata::msgpack_pack` writes a 2-element array headed by the
version tag 2 followed by the sequence payload; `metadata::msgpack_unpack`
succeeds exactly on such arrays — an array whose first element equals its
arity and that version is the known value 2 — and then restores the stored
sequence value exactly; everything else errors. -/
theorem claim_C8_metadata_versioning (m : metadata) (o : msg_object) (s : Int) :
    msgpack_pack m = .arr [.int 2, .int m.m_seq] ∧
    msgpack_unpack (msgpack_pack m) = some m.m_seq ∧
    (msgpack_unpack o = some s ↔ o = .arr [.int 2, .int s]) := by
  refine ⟨rfl, rfl, ?_⟩
  constructor
  · intro h
    match o with
    | .int n => exact absurd h (by simp [msgpack_unpack])
    | .other => exact absurd h (by simp [msgpack_unpack])
    | .arr [] => exact absurd h (by simp [msgpack_unpack, convert_int])
    | .arr [a] =>
      exfalso
      match a with
      | .int v =>
        simp only [msgpack_unpack, List.getD, List.getElem?_cons_zero, Option.getD_some,
          convert_int, List.length_singleton] at h
        rcases Int.decEq v 1 with hv | hv
        · simp [if_neg (by omega : ¬v = (1 : Int))] at h
        · subst hv
          simp at h
      | .arr l => simp [msgpack_unpack, convert_int] at h
      | .other => simp [msgpack_unpack, convert_int] at h
    | .arr (a :: b :: rest) =>
      match a with
      | .arr l => exact absurd h (by simp [msgpack_unpack, convert_int])
      | .other => exact absurd h (by simp [msgpack_unpack, convert_int])
      | .int v =>
        rw [msgpack_unpack_cons] at h
        by_cases hv : v = (rest.length : Int) + 2
        · rw [if_pos hv] at h
          by_cases hv2 : v = 2
          · rw [if_pos hv2] at h
            subst hv2
            have hrest : rest = [] := by
              have h0 : (rest.length : Int) = 0 := by omega
              exact List.length_eq_zero.mp (by exact_mod_cast h0)
            subst hrest
            match b with
            | .int nb =>
              have hnb : nb = s := by
                simpa [convert_int] using h
              subst hnb
              rfl
            | .arr l => exact absurd h (by simp [convert_int])
            | .other => exact absurd h (by simp [convert_int])
          · rw [if_neg hv2] at h
            exact Option.noConfusion h
        · rw [if_neg hv] at h
          exact Option.noConfusion h
  · rintro rfl
    rfl

/-- C9: with a non-null batch and dirty metadata, `database::sync_metadata`
only appends the metadata put to the caller's batch, clears the dirty flag
and succeeds unconditionally, performing no database write of its own
(whatever the database-put oracle would return); with clean metadata it
succeeds and changes nothing. -/
theorem claim_C9_sync_metadata_batch (seq : Int) (b : List batch_op) (e : Option Int) :
    sync_metadata e ⟨true, seq⟩ (some b) =
      (none, ⟨false, seq⟩,
        some (b ++ [.put "greylock.meta.key" (msgpack_pack ⟨true, seq⟩)]), []) ∧
    sync_metadata e ⟨false, seq⟩ (some b) = (none, ⟨false, seq⟩, some b, []) := by
  constructor
  · rfl
  · rfl

/-- C10: `on_search::check_result` accepts a document iff every exact
attribute of every mailbox query passes `check_exact`, verified against
the tokenized stored title exactly when the attribute name contains the
substring `"title"` anywhere, and against the tokenized stored content
otherwise; in particular `"subtitle"` contains `"title"` and is checked
against the title. -/
theorem claim_C10_check_result_title_dispatch (split : String → List String)
    (se : List mailbox_query) (doc : document) :
    (check_result split se doc = true ↔
      ∀ q ∈ se, ∀ attr ∈ q.exact,
        check_exact attr.tokens
          (split (if "title".toList <:+: attr.name.toList then doc.title else doc.content)) =
          true) ∧
    ("title".toList <:+: "subtitle".toList) := by
  constructor
  · unfold check_result
    rw [List.all_eq_true]
    constructor
    · intro h q hq attr hattr
      have h2 := h q hq
      rw [List.all_eq_true] at h2
      have h3 := h2 attr hattr
      by_cases hc : "title".toList <:+: attr.name.toList
      · rw [if_pos hc]
        rw [if_pos ((contains_sub_correct _ _).mpr hc)] at h3
        exact h3
      · rw [if_neg hc]
        rw [if_neg (fun hcc => hc ((contains_sub_correct _ _).mp hcc))] at h3
        exact h3
    · intro h q hq
      rw [List.all_eq_true]
      intro attr hattr
      have h3 := h q hq attr hattr
      by_cases hc : "title".toList <:+: attr.name.toList
      · rw [if_pos hc] at h3
        rw [if_pos ((contains_sub_correct _ _).mpr hc)]
        exact h3
      · rw [if_neg hc] at h3
        rw [if_neg (fun hcc => hc ((contains_sub_correct _ _).mp hcc))]
        exact h3
  · exact (contains_sub_correct _ _).mp (by decide)
